import Mathlib

/-!
Verification of the parsec.py combinator engine.

The embedding mirrors the source closely:
* `Core` holds the per-class data of each combinator (`Char`, `String`,
  `OneOf`, `NoneOf`, `Chain`, `Many`, `Many1`, `Between`, `SepBy`);
* every parser object is a `P`: a core together with the base-class
  `next_parser` / `type` pair (`Next`);
* Python's dynamically typed accumulator (a string or a list) is `Val`;
* an invocation of `Parser.parse` yields a `Res`: a returned triple
  (result, remaining input, optional error), an escaped exception, or
  fuel exhaustion (the source's loops are unbounded, so the interpreter
  is fueled).

Python strings are embedded as `List Char`.  `raise e` where `e` is a
`ParseError` (which does not derive from `BaseException`) raises a
`TypeError` in Python; the embedding models that faithfully.
-/

namespace PySec

abbrev Str := List Char

inductive NextType where
  | chain
  | alternative
  | discard
deriving DecidableEq

structure ParseError where
  message : Str
deriving DecidableEq

inductive PyExc where
  | typeError : Str → PyExc
  | indexError : Str → PyExc
deriving DecidableEq

/-- Python's message when raising an object that is not a `BaseException`. -/
def raiseMsg : Str := "exceptions must derive from BaseException".data

/-- Python's message for an unsupported `+` between a list and a string. -/
def concatMsg : Str := "can only concatenate str (not list) to str".data

/-- Python's message for indexing an empty string. -/
def idxMsg : Str := "string index out of range".data

/-- A dynamically typed accumulator value: a Python string or list. -/
inductive Val where
  | vs : Str → Val
  | vl : List Val → Val

mutual
def Val.decEq : (a b : Val) → Decidable (a = b)
  | .vs a, .vs b =>
    if h : a = b then .isTrue (by rw [h]) else .isFalse (by intro hc; cases hc; exact h rfl)
  | .vl a, .vl b =>
    match Val.decEqList a b with
    | .isTrue h => .isTrue (by rw [h])
    | .isFalse h => .isFalse (by intro hc; cases hc; exact h rfl)
  | .vs _, .vl _ => .isFalse (fun h => Val.noConfusion h)
  | .vl _, .vs _ => .isFalse (fun h => Val.noConfusion h)

def Val.decEqList : (a b : List Val) → Decidable (a = b)
  | [], [] => .isTrue rfl
  | x :: xs, y :: ys =>
    match Val.decEq x y, Val.decEqList xs ys with
    | .isTrue h1, .isTrue h2 => .isTrue (by rw [h1, h2])
    | .isFalse h1, _ => .isFalse (by intro hc; cases hc; exact h1 rfl)
    | _, .isFalse h2 => .isFalse (by intro hc; cases hc; exact h2 rfl)
  | [], _ :: _ => .isFalse (fun h => List.noConfusion h)
  | _ :: _, [] => .isFalse (fun h => List.noConfusion h)
end

instance : DecidableEq Val := Val.decEq

/-- Outcome of one `Parser.parse` invocation. -/
inductive Res where
  | ok : Val → Str → Option ParseError → Res
  | exn : PyExc → Res
  | fuelout : Res
deriving DecidableEq

/-- Python binary `+` on accumulator values. -/
def valAdd : Val → Val → Option Val
  | .vs a, .vs b => some (.vs (a ++ b))
  | .vl a, .vl b => some (.vl (a ++ b))
  | _, _ => none

/-- Python `+=` on accumulator values (`list += str` extends with the
string's characters; `str += list` is a `TypeError`). -/
def valIAdd : Val → Val → Option Val
  | .vs a, .vs b => some (.vs (a ++ b))
  | .vl a, .vl b => some (.vl (a ++ b))
  | .vl a, .vs b => some (.vl (a ++ b.map (fun c => Val.vs [c])))
  | .vs _, .vl _ => none

mutual
/-- The variant-specific data of each combinator class. -/
inductive Core where
  | char : Char → Core
  | str : Str → Core
  | oneOf : List Char → Core
  | noneOf : List Char → Core
  | chain : List P → List Bool → Core
  | many : P → Core
  | many1 : P → Core
  | between : P → P → P → Core
  | sepBy : P → P → Core

/-- The base class `Parser`'s `next_parser` and `type` fields. -/
inductive Next where
  | none : Next
  | link : NextType → P → Next

/-- A parser object: its core plus its alternative link. -/
inductive P where
  | mk : Core → Next → P
end

/-- `Parser.__lshift__` / `Chain.__lshift__`: sequence-discard. -/
def lshiftP : P → P → P
  | .mk (.chain os ds) nx, q => .mk (.chain (os ++ [q]) (ds ++ [true])) nx
  | p, q => .mk (.chain [p, q] [true]) .none

/-- `Parser.__rshift__` / `Chain.__rshift__`: sequence-keep. -/
def rshiftP : P → P → P
  | .mk (.chain os ds) nx, q => .mk (.chain (os ++ [q]) (ds ++ [false])) nx
  | p, q => .mk (.chain [p, q] [false]) .none

/-- `Parser.add` with `NextType.Alternative`, i.e. `__or__`: walk to the
tail of the alternative chain, re-marking every link as alternation, and
append the right operand there. -/
def addAlt : P → P → P
  | .mk c .none, q => .mk c (.link .alternative q)
  | .mk c (.link _ np), q => .mk c (.link .alternative (addAlt np q))

/-- `string.startswith(tuple(chars))` for a tuple of single characters. -/
def startsWithAny (cs : List Char) : Str → Bool
  | [] => false
  | c :: _ => cs.contains c

/-- `Char.parse_body`'s error message. -/
def charErrMsg (c : Char) (s : Str) : Str :=
  "expected ".data ++ [c] ++ ", got ".data ++ s.take 1

/-- `OneOf.parse_body`'s error message. -/
def oneOfErrMsg (cs : List Char) (s : Str) : Str :=
  "expected one of ".data ++ cs ++ ", got ".data ++ s.take 1

/-- `NoneOf.parse_body`'s error message. -/
def noneOfErrMsg (cs : List Char) (s : Str) : Str :=
  "expected none of ".data ++ cs ++ ", got ".data ++ s.take 1

/-- `String.parse_body`'s (fixed) error message. -/
def strErrMsg : Str := "Cannot parse empty string".data

/-- The loop of `Chain.parse_body`: `step` is a suppressed `parse` call on
a sub-parser, `s0` the string passed to the whole chain, `ds` the discard
map, `i` the loop index, `res` the working accumulator, `prevacc` the kept
baseline. -/
def chainLoop (step : P → Str → Val → Res) (s0 : Str) (ds : List Bool) :
    List P → Nat → Val → Val → Str → Res
  | [], _, res, _, rest => .ok res rest none
  | q :: qs, i, res, prevacc, rest =>
    let res1 := if i > 0 && ds.getD (i - 1) false then prevacc else res
    match step q rest res1 with
    | .ok r rest' e =>
      let prevacc' := if i < ds.length && !(ds.getD i false) then r else prevacc
      match e with
      | some err => .ok (.vs []) s0 (some err)
      | none => chainLoop step s0 ds qs (i + 1) r prevacc' rest'
    | other => other

/-- The loop of `Many.parse_body` (also the tail loop of `Many1`): the
sub-parser is attempted suppressed with an empty accumulator; successes
are `+=`-appended, the first failure ends the loop with no error. -/
def manyLoop (step : Str → Res) : Nat → Val → Str → Res
  | 0, _, _ => .fuelout
  | n + 1, result, rest =>
    match step rest with
    | .ok val rest' none =>
      match valIAdd result val with
      | some r' => manyLoop step n r' rest'
      | none => .exn (.typeError concatMsg)
    | .ok _ rest' (some _) => .ok result rest' none
    | other => other

/-- The loop of `SepBy.parse_body`: body then separator, append the body
result, loop while the separator succeeds; on separator failure return
the list, the remaining input, and the body's failure of that iteration. -/
def sepLoop (stepB stepS : Str → Res) : Nat → List Val → Str → Res
  | 0, _, _ => .fuelout
  | n + 1, result, rest =>
    match stepB rest with
    | .ok res rest1 berror =>
      match stepS rest1 with
      | .ok _ rest2 none => sepLoop stepB stepS n (result ++ [res]) rest2
      | .ok _ rest2 (some _) => .ok (.vl (result ++ [res])) rest2 berror
      | other => other
    | other => other

/-- The `parse_body` of each combinator class; `step` is a full
(recursive) `parse` call on a sub-parser, `n` bounds the source's
unbounded loops. -/
def parseCore (step : P → Str → Val → Bool → Res) (n : Nat) :
    Core → Str → Val → Res
  | .char c, s, acc =>
    match s with
    | c' :: rest =>
      if c' = c then
        match valAdd acc (.vs [c]) with
        | some r => .ok r rest none
        | none => .exn (.typeError concatMsg)
      else .ok acc s (some ⟨charErrMsg c s⟩)
    | [] => .ok acc s (some ⟨charErrMsg c s⟩)
  | .str ps, s, acc =>
    if ps.isPrefixOf s then
      match valAdd acc (.vs ps) with
      | some r => .ok r (s.drop ps.length) none
      | none => .exn (.typeError concatMsg)
    else .ok acc s (some ⟨strErrMsg⟩)
  | .oneOf cs, s, acc =>
    if startsWithAny cs s then
      match s with
      | c :: rest =>
        match valAdd acc (.vs [c]) with
        | some r => .ok r rest none
        | none => .exn (.typeError concatMsg)
      | [] => .exn (.indexError idxMsg)
    else .ok acc s (some ⟨oneOfErrMsg cs s⟩)
  | .noneOf cs, s, acc =>
    if !(startsWithAny cs s) then
      match s with
      | c :: rest =>
        match valAdd acc (.vs [c]) with
        | some r => .ok r rest none
        | none => .exn (.typeError concatMsg)
      | [] => .exn (.indexError idxMsg)
    else .ok acc s (some ⟨noneOfErrMsg cs s⟩)
  | .chain os ds, s, acc =>
    chainLoop (fun q s' a => step q s' a true) s ds os 0 (.vs []) acc s
  | .many p, s, acc =>
    manyLoop (fun s' => step p s' (.vs []) true) n acc s
  | .many1 p, s, acc =>
    match step p s acc true with
    | .ok val rest none =>
      match valIAdd acc val with
      | some r1 => manyLoop (fun s' => step p s' (.vs []) true) n r1 rest
      | none => .exn (.typeError concatMsg)
    | .ok _ rest (some e) => .ok acc rest (some e)
    | other => other
  | .between st bd en, s, acc =>
    match step (lshiftP st bd) s acc false with
    | .ok result rest e =>
      match e with
      | some err => .ok acc s (some err)
      | none =>
        match step en rest (.vs []) false with
        | .ok _ rest2 e2 => .ok result rest2 e2
        | other => other
    | other => other
  | .sepBy bd sp, s, _ =>
    sepLoop (fun s' => step bd s' (.vs []) true) (fun s' => step sp s' (.vs []) true)
      n [] s

/-- `Parser.send_rest`: alternation dispatch and error escalation.
Raising a `ParseError` (not a `BaseException`) is a `TypeError`. -/
def sendRest (step : P → Str → Val → Bool → Res) :
    Next → Val → Str → Option ParseError → Bool → Res
  | .none, r, rest, e, sup =>
    match e, sup with
    | some _, false => .exn (.typeError raiseMsg)
    | _, _ => .ok r rest e
  | .link ty np, r, rest, e, sup =>
    if ty = .alternative then
      match e with
      | some _ => step np rest r sup
      | none => .ok r rest e
    else
      match e, sup with
      | some _, false => .exn (.typeError raiseMsg)
      | _, _ => step np rest r sup

/-- `Parser.parse`: run `parse_body`, then dispatch through `send_rest`.
Fuel decreases on every nested `parse` invocation. -/
def parseF : Nat → P → Str → Val → Bool → Res
  | 0, _, _, _, _ => .fuelout
  | f + 1, .mk c nx, s, acc, sup =>
    match parseCore (parseF f) (f + 1) c s acc with
    | .ok r rest e => sendRest (parseF f) nx r rest e sup
    | other => other

/-- A bare literal-character parser, `Char(c)`. -/
def charP (c : Char) : P := .mk (.char c) .none

/-- A bare literal-string parser, `String(s)`. -/
def strP (s : Str) : P := .mk (.str s) .none

/-- `digit()` from the source: `OneOf` over the decimal digits. -/
def digitP : P := .mk (.oneOf "0123456789".data) .none

/-- A bare `OneOf(chars)` parser. -/
def oneOfP (cs : List Char) : P := .mk (.oneOf cs) .none

/-- A bare `NoneOf(chars)` parser. -/
def noneOfP (cs : List Char) : P := .mk (.noneOf cs) .none

/-- A bare `Many(p)` parser. -/
def manyP (p : P) : P := .mk (.many p) .none

/-- A bare `Many1(p)` parser. -/
def many1P (p : P) : P := .mk (.many1 p) .none

/-- A bare `Between(a, b, c)` parser. -/
def betweenP (a b c : P) : P := .mk (.between a b c) .none

/-- A bare `SepBy(b, sp)` parser. -/
def sepByP (b sp : P) : P := .mk (.sepBy b sp) .none

mutual
/-- Parsers as actually produced by the library's composition operators
and free of `SepBy`: every link is an alternation link and no `SepBy`
node occurs anywhere. -/
def goodP : P → Bool
  | .mk c nx => goodCore c && goodNext nx

def goodCore : Core → Bool
  | .char _ => true
  | .str _ => true
  | .oneOf _ => true
  | .noneOf _ => true
  | .chain os _ => goodList os
  | .many p => goodP p
  | .many1 p => goodP p
  | .between a b c => goodP a && goodP b && goodP c
  | .sepBy _ _ => false

def goodNext : Next → Bool
  | .none => true
  | .link ty np => (ty = .alternative) && goodP np

def goodList : List P → Bool
  | [] => true
  | p :: ps => goodP p && goodList ps
end

/-- A literal leaf: a bare `Char` or `String` matcher. -/
def litLeaf : P → Bool
  | .mk (.char _) .none => true
  | .mk (.str _) .none => true
  | _ => false

/-- A grammar built only from literal matchers and keep-sequencing,
without nesting: a bare literal leaf, or a single flat `Chain` of
literal leaves all of whose discard flags are false. -/
def flatKeepLit : P → Bool
  | .mk (.chain os ds) .none => os.all litLeaf && ds.all (fun b => b = false)
  | p => litLeaf p

/-- The flattened alternative chain of a parser: the cores reached by
following the `next_parser` links from the head. -/
def altsOf : P → List Core
  | .mk c .none => [c]
  | .mk c (.link _ np) => c :: altsOf np

theorem altsOf_addAlt (p q : P) : altsOf (addAlt p q) = altsOf p ++ altsOf q := by
  induction p, q using addAlt.induct with
  | case1 c => simp [addAlt, altsOf]
  | case2 c ty np q ih => simp [addAlt, altsOf, ih]

/-- `Chain.parse_body` fails atomically: whenever the loop reports an
error, the accumulated result is reset to the empty string and the
remaining input is the string the whole chain started from. -/
theorem chainLoop_err (step : P → Str → Val → Res) (s0 : Str) (ds : List Bool) :
    ∀ (os : List P) (i : Nat) (res pv : Val) (rest : Str) (r : Val) (rest' : Str)
      (e : ParseError),
      chainLoop step s0 ds os i res pv rest = .ok r rest' (some e) →
      r = .vs [] ∧ rest' = s0 := by
  intro os
  induction os with
  | nil => intro i res pv rest r rest' e h; simp [chainLoop] at h
  | cons q qs ih =>
    intro i res pv rest r rest' e h
    simp only [chainLoop] at h
    rcases hs : step q rest (if i > 0 && ds.getD (i - 1) false then pv else res) with
      ⟨r1, rest1, e1⟩ | exc | _ <;> rw [hs] at h
    · cases e1 with
      | none => exact ih _ _ _ _ _ _ _ h
      | some err => cases h; exact ⟨rfl, rfl⟩
    · cases h
    · cases h

/-- C1 counterexample: with `a = Char('a')` and `b = Char('b')`, parsing
"abc" with `a << b` under suppression does NOT return result "a" with
remaining "c": the claim's predicted triple differs from the actual one. -/
theorem C1_counterexample :
    parseF 10 (lshiftP (charP 'a') (charP 'b')) "abc".data (.vs []) true ≠
      .ok (.vs "a".data) "c".data none := by decide

/-- C1 amended: parsing "abc" with `a << b` under suppression returns
accumulated result "b" and remaining input "c" with no error — the LEFT
operand's match 'a' is consumed from the input but excluded from the
result (the discard flag of `<<` is attached to the left operand). -/
theorem C1_amended_discards_left :
    parseF 10 (lshiftP (charP 'a') (charP 'b')) "abc".data (.vs []) true =
      .ok (.vs "b".data) "c".data none := by decide

/-- C3 counterexample: in `Char('x') >> ((Char('a') >> Char('b')) | Char('c'))`
on "xcd", the inner sequence fails and its alternative `Char('c')` is
retried; if the original accumulator "x" were preserved, the overall
result would be "xc" — but the actual result is "c" with remaining "d":
the incoming accumulator is discarded when the failing combinator is a
`Chain`. -/
theorem C3_counterexample :
    parseF 20 (rshiftP (charP 'x')
        (addAlt (rshiftP (charP 'a') (charP 'b')) (charP 'c')))
        "xcd".data (.vs []) false = .ok (.vs "c".data) "d".data none ∧
    Val.vs "c".data ≠ .vs "xc".data := by decide

/-- C3 amended: when a failing combinator with an alternation link is a
`Chain`, the linked alternative is retried against the original input but
with the EMPTY accumulator, not the original one: a failed `Chain` body
returns result "" and the unchanged input, and `send_rest` hands exactly
that pair to the alternative. -/
theorem C3_amended_chain_alt_retry (f : Nat) (os : List P) (ds : List Bool)
    (np : P) (s : Str) (acc r : Val) (rest : Str) (e : ParseError) (sup : Bool)
    (h : parseCore (parseF f) (f + 1) (.chain os ds) s acc = .ok r rest (some e)) :
    r = .vs [] ∧ rest = s ∧
    parseF (f + 1) (.mk (.chain os ds) (.link .alternative np)) s acc sup =
      parseF f np s (.vs []) sup := by
  have h' := h
  simp only [parseCore] at h'
  obtain ⟨hr, hrest⟩ := chainLoop_err _ _ _ _ _ _ _ _ _ _ _ h'
  subst hr; subst hrest
  refine ⟨rfl, rfl, ?_⟩
  simp only [parseF]
  rw [h]
  simp [sendRest]

/-- C3 amended, witness: the amended theorem applied to the inner
sequence `Char('a') >> Char('b')` failing on "cd" with incoming
accumulator "x" and alternative `Char('c')`. -/
theorem C3_amended_chain_alt_retry_witness :
    parseCore (parseF 10) 11 (.chain [charP 'a', charP 'b'] [false]) "cd".data
        (.vs "x".data) = .ok (.vs []) "cd".data (some ⟨charErrMsg 'a' "cd".data⟩) ∧
    parseF 11 (.mk (.chain [charP 'a', charP 'b'] [false])
        (.link .alternative (charP 'c'))) "cd".data (.vs "x".data) true =
      parseF 10 (charP 'c') "cd".data (.vs []) true :=
  ⟨by decide,
   (C3_amended_chain_alt_retry 10 [charP 'a', charP 'b'] [false] (charP 'c')
      "cd".data (.vs "x".data) (.vs []) "cd".data ⟨charErrMsg 'a' "cd".data⟩ true
      (by decide)).2.2⟩

/-- C5: the code is wrong — `ParseError` does not derive from
`BaseException`, so an unsuppressed top-level failure raises a
`TypeError` whose message is the fixed interpreter message, and the
underlying mismatch message ("expected a, got x") never reaches the
caller. -/
theorem C5_escalation_loses_message :
    parseF 10 (charP 'a') "xbc".data (.vs []) false = .exn (.typeError raiseMsg) ∧
    raiseMsg ≠ charErrMsg 'a' "xbc".data := by decide

/-- C8 counterexample: `Char('a') >> (Char('b') >> Char('c'))` is built
only from literal-character matchers and keep-sequencing; on "abc" it
succeeds with an empty initial accumulator, yet result ++ remaining =
"bc" ≠ "abc": the inner `Chain` resets its working accumulator to the
empty string, dropping the outer progress. -/
theorem C8_counterexample :
    parseF 20 (rshiftP (charP 'a') (rshiftP (charP 'b') (charP 'c')))
        "abc".data (.vs []) true = .ok (.vs "bc".data) [] none ∧
    "bc".data ++ ([] : Str) ≠ "abc".data := by decide

/-- C10: applying `NoneOf` to an empty remaining input never returns an
outcome triple: for every exclusion set the success branch indexes the
first character of the empty string, so the call aborts with an
out-of-range indexing error — while the literal-character,
literal-string (nonempty literal) and inclusion matchers all return an
error-carrying triple on empty input under suppression. -/
theorem C10_noneOf_empty_crashes (cs : List Char) (c : Char) (ps : Str)
    (acc : Val) (sup : Bool) (f : Nat) :
    parseF (f + 1) (noneOfP cs) [] acc sup = .exn (.indexError idxMsg) ∧
    parseF (f + 1) (charP c) [] acc true = .ok acc [] (some ⟨charErrMsg c []⟩) ∧
    parseF (f + 1) (strP (c :: ps)) [] acc true = .ok acc [] (some ⟨strErrMsg⟩) ∧
    parseF (f + 1) (oneOfP cs) [] acc true = .ok acc [] (some ⟨oneOfErrMsg cs []⟩) := by
  refine ⟨?_, ?_, ?_, ?_⟩ <;>
    simp [parseF, parseCore, sendRest, startsWithAny, noneOfP, charP, strP, oneOfP,
      List.isPrefixOf]

/-- Any triple returned by `SepBy`'s loop comes from an iteration in
which the separator failed; the returned error is the BODY's failure
value of that iteration (possibly none), and the body result of that
iteration is appended to the returned list regardless. -/
theorem sepLoop_ret (B S : Str → Res) :
    ∀ (n : Nat) (res0 : List Val) (s : Str) (r : Val) (rest : Str)
      (e : Option ParseError),
      sepLoop B S n res0 s = .ok r rest e →
      ∃ s1 v rest1 vals w e2,
        B s1 = .ok v rest1 e ∧ S rest1 = .ok w rest (some e2) ∧
        r = .vl (vals ++ [v]) := by
  intro n
  induction n with
  | zero => intro res0 s r rest e h; simp [sepLoop] at h
  | succ n ih =>
    intro res0 s r rest e h
    simp only [sepLoop] at h
    rcases hb : B s with ⟨v1, rest1, be⟩ | exc | _ <;> rw [hb] at h <;>
        (try dsimp only at h)
    · rcases hs : S rest1 with ⟨w1, rest2, se⟩ | exc | _ <;> rw [hs] at h <;>
        (try dsimp only at h)
      · cases se with
        | none => exact ih _ _ _ _ _ h
        | some e2 =>
          cases h
          exact ⟨s, v1, rest1, res0, w1, e2, hb, hs, rfl⟩
      · cases h
      · cases h
    · cases h
    · cases h

/-- C2 counterexample: `SepBy(digit, Char(','))` on the well-formed,
fully-consumed list "1,2" returns the collected items with an EMPTY
error field — the terminating iteration's body succeeded and only the
separator failed, so the claimed non-empty error is absent. -/
theorem C2_counterexample :
    parseF 30 (sepByP digitP (charP ',')) "1,2".data (.vs []) true =
      .ok (.vl [.vs "1".data, .vs "2".data]) [] none := by decide

/-- C2 amended: for every body and separator and every input on which the
loop terminates with a triple, `SepBy` returns the collected list
together with the BODY's failure value of the terminating iteration —
which is `none` whenever the final body attempt succeeded and the
separator caused termination; so a well-formed fully-consumed separated
list yields an empty error field, not a non-empty one. -/
theorem C2_amended_body_error (f : Nat) (bd sp : P) (s : Str) (acc r : Val)
    (rest : Str) (e : Option ParseError) (sup : Bool)
    (h : parseF (f + 1) (sepByP bd sp) s acc sup = .ok r rest e) :
    ∃ s1 v rest1 vals w e2,
      parseF f bd s1 (.vs []) true = .ok v rest1 e ∧
      parseF f sp rest1 (.vs []) true = .ok w rest (some e2) ∧
      r = .vl (vals ++ [v]) := by
  simp only [sepByP, parseF, parseCore] at h
  rcases hs : sepLoop (fun s' => parseF f bd s' (.vs []) true)
      (fun s' => parseF f sp s' (.vs []) true) (f + 1) [] s with
    ⟨r0, rest0, e0⟩ | exc | _ <;> rw [hs] at h
  · have hsend := h
    rcases e0 with _ | e0 <;> rcases sup with _ | _ <;>
      simp only [sendRest] at hsend <;> try cases hsend
    all_goals {
      obtain ⟨s1, v, rest1, vals, w, e2, hb, hsp, hr⟩ := sepLoop_ret _ _ _ _ _ _ _ _ hs
      exact ⟨s1, v, rest1, vals, w, e2, hb, hsp, hr⟩
    }
  · cases h
  · cases h

/-- C2 amended, witness: the amended theorem applied to
`SepBy(digit, Char(','))` on "1,2". -/
theorem C2_amended_body_error_witness :
    parseF 30 (sepByP digitP (charP ',')) "1,2".data (.vs []) true =
      .ok (.vl [.vs "1".data, .vs "2".data]) [] none ∧
    ∃ s1 v rest1 vals w e2,
      parseF 29 digitP s1 (.vs []) true = .ok v rest1 none ∧
      parseF 29 (charP ',') rest1 (.vs []) true = .ok w [] (some e2) ∧
      Val.vl [.vs "1".data, .vs "2".data] = .vl (vals ++ [v]) :=
  ⟨by decide,
   C2_amended_body_error 29 digitP (charP ',') "1,2".data (.vs [])
     (.vl [.vs "1".data, .vs "2".data]) [] none true (by decide)⟩

/-- `Many`'s loop never reports an error in a returned triple. -/
theorem manyLoop_no_err (step : Str → Res) :
    ∀ (n : Nat) (res : Val) (rest : Str) (r : Val) (rest' : Str)
      (e : Option ParseError),
      manyLoop step n res rest = .ok r rest' e → e = none := by
  intro n
  induction n with
  | zero => intro res rest r rest' e h; simp [manyLoop] at h
  | succ n ih =>
    intro res rest r rest' e h
    simp only [manyLoop] at h
    rcases hs : step rest with ⟨v1, rest1, e1⟩ | exc | _ <;> rw [hs] at h
    · cases e1 with
      | none =>
        dsimp only at h
        rcases hv : valIAdd res v1 with _ | r1 <;> rw [hv] at h <;>
          (try dsimp only at h)
        · cases h
        · exact ih _ _ _ _ _ h
      | some err => dsimp only at h; cases h; rfl
    · cases h
    · cases h

/-- An unsuppressed `parse` never returns an error-carrying triple: every
failure with `suppress = false` escalates (into the `TypeError` raise)
before a triple can be returned. -/
theorem no_err_unsuppressed :
    ∀ (f : Nat) (p : P) (s : Str) (acc : Val) (r : Val) (rest : Str)
      (e : ParseError),
      parseF f p s acc false = .ok r rest (some e) → False := by
  intro f
  induction f with
  | zero => intro p s acc r rest e h; simp [parseF] at h
  | succ f ih =>
    intro p s acc r rest e h
    obtain ⟨c, nx⟩ := p
    simp only [parseF] at h
    rcases hb : parseCore (parseF f) (f + 1) c s acc with ⟨r0, rest0, e0⟩ | exc | _ <;>
      rw [hb] at h <;> (try dsimp only at h)
    · cases nx with
      | none =>
        cases e0 with
        | none => simp [sendRest] at h
        | some e1 => simp [sendRest] at h
      | link ty np =>
        by_cases hty : ty = NextType.alternative
        · subst hty
          cases e0 with
          | none => simp [sendRest] at h
          | some e1 =>
            simp only [sendRest, if_pos rfl] at h
            exact ih _ _ _ _ _ _ h
        · cases e0 with
          | none =>
            simp only [sendRest, if_neg hty] at h
            exact ih _ _ _ _ _ _ h
          | some e1 => simp [sendRest, if_neg hty] at h
    · cases h
    · cases h

/-- `parse_body`-level failure lemma: for a `SepBy`-free core, whenever a
core's body reports an error in a returned triple, the remaining input
equals the input given to the core.  The two function hypotheses are the
corresponding facts for sub-parses at the next fuel level. -/
theorem parseCore_err_rest (f : Nat)
    (ihA : ∀ (p : P) (s : Str) (acc : Val) (sup : Bool) (r : Val) (rest : Str)
      (e : ParseError), goodP p = true →
      parseF f p s acc sup = .ok r rest (some e) → rest = s)
    (c : Core) (n : Nat) (s : Str) (acc : Val) (r : Val) (rest : Str)
    (e : ParseError) (hg : goodCore c = true)
    (h : parseCore (parseF f) n c s acc = .ok r rest (some e)) : rest = s := by
  cases c with
  | char c =>
    cases s with
    | nil => simp only [parseCore] at h; cases h; rfl
    | cons c' t =>
      simp only [parseCore] at h
      split at h
      · rcases hv : valAdd acc (.vs [c]) with _ | v <;> rw [hv] at h <;>
          (try dsimp only at h) <;> cases h
      · cases h; rfl
  | str ps =>
    simp only [parseCore] at h
    split at h
    · rcases hv : valAdd acc (.vs ps) with _ | v <;> rw [hv] at h <;>
        (try dsimp only at h) <;> cases h
    · cases h; rfl
  | oneOf cs =>
    cases s with
    | nil =>
      simp only [parseCore] at h
      split at h
      · (try dsimp only at h); cases h
      · cases h; rfl
    | cons c' t =>
      simp only [parseCore] at h
      split at h
      · (try dsimp only at h)
        rcases hv : valAdd acc (.vs [c']) with _ | v <;> rw [hv] at h <;>
          (try dsimp only at h) <;> cases h
      · cases h; rfl
  | noneOf cs =>
    cases s with
    | nil =>
      simp only [parseCore] at h
      split at h
      · (try dsimp only at h); cases h
      · cases h; rfl
    | cons c' t =>
      simp only [parseCore] at h
      split at h
      · (try dsimp only at h)
        rcases hv : valAdd acc (.vs [c']) with _ | v <;> rw [hv] at h <;>
          (try dsimp only at h) <;> cases h
      · cases h; rfl
  | chain os ds =>
    simp only [parseCore] at h
    exact (chainLoop_err _ _ _ _ _ _ _ _ _ _ _ h).2
  | many p =>
    simp only [parseCore] at h
    cases manyLoop_no_err _ _ _ _ _ _ _ h
  | many1 p =>
    simp only [parseCore] at h
    rcases hm : parseF f p s acc true with ⟨v1, rest1, e1⟩ | exc | _ <;>
      rw [hm] at h
    · cases e1 with
      | none =>
        dsimp only at h
        rcases hv : valIAdd acc v1 with _ | r1 <;> rw [hv] at h <;>
          (try dsimp only at h)
        · cases h
        · cases manyLoop_no_err _ _ _ _ _ _ _ h
      | some e1 =>
        dsimp only at h
        cases h
        exact ihA _ _ _ _ _ _ _ (by simpa [goodCore, goodP] using hg) hm
    · cases h
    · cases h
  | between st1 bd en =>
    simp only [parseCore] at h
    rcases h1 : parseF f (lshiftP st1 bd) s acc false with ⟨r0, rest0, e0⟩ | exc | _ <;>
      rw [h1] at h <;> (try dsimp only at h)
    · cases e0 with
      | none =>
        rcases h2 : parseF f en rest0 (.vs []) false with ⟨r2, rest2, e2⟩ | exc | _ <;>
          rw [h2] at h <;> (try dsimp only at h)
        · cases h
          cases no_err_unsuppressed f en rest0 (.vs []) _ _ _ h2
        · cases h
        · cases h
      | some e0 => cases h; rfl
    · cases h
    · cases h
  | sepBy bd sp => simp [goodCore] at hg

/-- C4 amended, main lemma: for every `SepBy`-free parser built with the
library's operators (all links alternation links), every input slice and
accumulator, whenever the returned triple carries a non-empty error the
returned remaining input equals the input slice given to the parser
unchanged. -/
theorem good_err_rest :
    ∀ (f : Nat) (p : P) (s : Str) (acc : Val) (sup : Bool) (r : Val)
      (rest : Str) (e : ParseError), goodP p = true →
      parseF f p s acc sup = .ok r rest (some e) → rest = s := by
  intro f
  induction f with
  | zero => intro p s acc sup r rest e _ h; simp [parseF] at h
  | succ f ih =>
    intro p s acc sup r rest e hg h
    obtain ⟨c, nx⟩ := p
    have hgc : goodCore c = true := by
      simp only [goodP, Bool.and_eq_true] at hg; exact hg.1
    have hgn : goodNext nx = true := by
      simp only [goodP, Bool.and_eq_true] at hg; exact hg.2
    simp only [parseF] at h
    rcases hb : parseCore (parseF f) (f + 1) c s acc with ⟨r0, rest0, e0⟩ | exc | _ <;>
      rw [hb] at h <;> (try dsimp only at h)
    · cases nx with
      | none =>
        cases e0 with
        | none => rcases sup with _ | _ <;> simp [sendRest] at h
        | some e1 =>
          rcases sup with _ | _ <;> simp only [sendRest] at h
          · cases h
          · cases h
            exact parseCore_err_rest f ih c (f + 1) s acc _ _ _ hgc hb
      | link ty np =>
        have hty : ty = NextType.alternative := by
          simp only [goodNext, Bool.and_eq_true, decide_eq_true_eq] at hgn
          exact hgn.1
        have hgq : goodP np = true := by
          simp only [goodNext, Bool.and_eq_true] at hgn
          exact hgn.2
        subst hty
        cases e0 with
        | none => simp [sendRest] at h
        | some e1 =>
          simp only [sendRest, if_pos rfl] at h
          have hrest0 : rest0 = s :=
            parseCore_err_rest f ih c (f + 1) s acc r0 rest0 e1 hgc hb
          subst hrest0
          exact ih _ _ _ _ _ _ _ hgq h
    · cases h
    · cases h

/-- C4 counterexample: `SepBy(digit, Char(','))` on "1," returns a triple
carrying a non-empty error (the body's failure of the final iteration)
whose remaining input is "" — the input slice "1," was partially
consumed, so the claimed invariant fails for `SepBy`. -/
theorem C4_counterexample :
    parseF 30 (sepByP digitP (charP ',')) "1,".data (.vs []) true =
      .ok (.vl [.vs "1".data, .vs []]) []
        (some ⟨oneOfErrMsg "0123456789".data []⟩) ∧
    ([] : Str) ≠ "1,".data := by decide

/-- C4 amended: the no-partial-consumption-on-failure invariant holds for
every combinator except `SepBy`: for every parser containing no `SepBy`
node (leaves, sequences, repetition, `Between`, and alternation links
between them), an error-carrying returned triple has remaining input
equal to the input slice given to the parser; `SepBy` violates it. -/
theorem C4_amended_no_partial_consumption (f : Nat) (p : P) (s : Str)
    (acc : Val) (sup : Bool) (r : Val) (rest : Str) (e : ParseError)
    (hg : goodP p = true)
    (h : parseF f p s acc sup = .ok r rest (some e)) : rest = s :=
  good_err_rest f p s acc sup r rest e hg h

/-- C4 amended, witness: `Char('a')` on "xbc" fails and leaves the
remainder untouched. -/
theorem C4_amended_no_partial_consumption_witness :
    goodP (charP 'a') = true ∧
    parseF 5 (charP 'a') "xbc".data (.vs []) true =
      .ok (.vs []) "xbc".data (some ⟨charErrMsg 'a' "xbc".data⟩) ∧
    "xbc".data = "xbc".data :=
  ⟨by decide, by decide,
   C4_amended_no_partial_consumption 5 (charP 'a') "xbc".data (.vs []) true
     (.vs []) "xbc".data ⟨charErrMsg 'a' "xbc".data⟩ (by decide) (by decide)⟩

/-- If a combinator's own body succeeds, `send_rest` returns its triple
unchanged and the linked alternative is never consulted. -/
theorem alt_first_success (f : Nat) (c : Core) (q : P) (s : Str) (acc : Val)
    (sup : Bool) (r : Val) (rest : Str)
    (h : parseCore (parseF f) (f + 1) c s acc = .ok r rest none) :
    parseF (f + 1) (.mk c (.link .alternative q)) s acc sup = .ok r rest none := by
  simp only [parseF]
  rw [h]
  simp [sendRest]

/-- If a combinator's own body fails and the core is `SepBy`-free, the
linked alternative is retried against the very same input slice, with
the failed body's result as the new accumulator. -/
theorem alt_failure_retry (f : Nat) (c : Core) (q : P) (s : Str) (acc : Val)
    (sup : Bool) (r : Val) (rest : Str) (e : ParseError) (hgc : goodCore c = true)
    (h : parseCore (parseF f) (f + 1) c s acc = .ok r rest (some e)) :
    parseF (f + 1) (.mk c (.link .alternative q)) s acc sup = parseF f q s r sup := by
  have hrest : rest = s :=
    parseCore_err_rest f (good_err_rest f) c (f + 1) s acc r rest e hgc h
  subst hrest
  simp only [parseF]
  rw [h]
  simp [sendRest]

/-- C6: alternation resolution.  (1) `|` appends alternatives in order at
the tail of the chain; (2) the first success wins and no later
alternative is consulted; (3) on failure the next alternative runs
against the same input slice; (4) if every alternative fails, the
LAST alternative's failure is the one surfaced under suppression; and
(5) concretely, `Char('a') | Char('b')` on "bcd" yields "b" with
remaining "cd". -/
theorem C6_alternation_order :
    (∀ (p q : P), altsOf (addAlt p q) = altsOf p ++ altsOf q) ∧
    (∀ (f : Nat) (c : Core) (q : P) (s : Str) (acc : Val) (sup : Bool) (r : Val)
      (rest : Str), parseCore (parseF f) (f + 1) c s acc = .ok r rest none →
      parseF (f + 1) (.mk c (.link .alternative q)) s acc sup = .ok r rest none) ∧
    (∀ (f : Nat) (c : Core) (q : P) (s : Str) (acc : Val) (sup : Bool) (r : Val)
      (rest : Str) (e : ParseError), goodCore c = true →
      parseCore (parseF f) (f + 1) c s acc = .ok r rest (some e) →
      parseF (f + 1) (.mk c (.link .alternative q)) s acc sup = parseF f q s r sup) ∧
    (∀ (f : Nat) (c1 c2 : Core) (s : Str) (acc r1 : Val) (rest1 : Str)
      (e1 : ParseError) (r2 : Val) (rest2 : Str) (e2 : ParseError),
      goodCore c1 = true →
      parseCore (parseF f) (f + 1) c1 s acc = .ok r1 rest1 (some e1) →
      parseF f (.mk c2 .none) s r1 true = .ok r2 rest2 (some e2) →
      parseF (f + 1) (.mk c1 (.link .alternative (.mk c2 .none))) s acc true =
        .ok r2 rest2 (some e2)) ∧
    parseF 10 (addAlt (charP 'a') (charP 'b')) "bcd".data (.vs []) true =
      .ok (.vs "b".data) "cd".data none := by
  refine ⟨altsOf_addAlt, alt_first_success, alt_failure_retry, ?_, by decide⟩
  intro f c1 c2 s acc r1 rest1 e1 r2 rest2 e2 hg hb h2
  rw [alt_failure_retry f c1 (.mk c2 .none) s acc true r1 rest1 e1 hg hb]
  exact h2

/-- C6 witness: the first-success conjunct applied to
`Char('b') | Char('z')` on "bcd": the body succeeds with "b" and the
alternative `Char('z')` is irrelevant. -/
theorem C6_alternation_order_witness :
    parseF 6 (.mk (.char 'b') (.link .alternative (charP 'z'))) "bcd".data
      (.vs []) true = .ok (.vs "b".data) "cd".data none :=
  C6_alternation_order.2.1 5 (.char 'b') (charP 'z') "bcd".data (.vs []) true
    (.vs "b".data) "cd".data (by decide)

/-- `Many`'s loop started on a string accumulator only ever extends it on
the right. -/
theorem manyLoop_vs (step : Str → Res) :
    ∀ (n : Nat) (a : Str) (rest : Str) (r : Val) (rest' : Str)
      (e : Option ParseError),
      manyLoop step n (.vs a) rest = .ok r rest' e → ∃ t, r = .vs (a ++ t) := by
  intro n
  induction n with
  | zero => intro a rest r rest' e h; simp [manyLoop] at h
  | succ n ih =>
    intro a rest r rest' e h
    simp only [manyLoop] at h
    rcases hs : step rest with ⟨v1, rest1, e1⟩ | exc | _ <;> rw [hs] at h
    · cases e1 with
      | none =>
        cases v1 with
        | vs b =>
          dsimp only [valIAdd] at h
          obtain ⟨t, ht⟩ := ih (a ++ b) rest1 r rest' e h
          exact ⟨b ++ t, by rw [ht, List.append_assoc]⟩
        | vl xs => dsimp only [valIAdd] at h; cases h
      | some err => dsimp only at h; cases h; exact ⟨[], by simp⟩
    · cases h
    · cases h

/-- C7: `Many(p)` always succeeds — for every sub-parser, input,
accumulator and suppression mode, any triple it returns carries no error
and its result only extends the accumulator; concretely,
`Many(Char('a'))` on "bbb" returns result "", remaining "bbb", no
error. -/
theorem C7_many_always_succeeds :
    (∀ (f : Nat) (p : P) (s : Str) (a : Str) (sup : Bool) (r : Val) (rest : Str)
      (e : Option ParseError),
      parseF f (manyP p) s (.vs a) sup = .ok r rest e →
      e = none ∧ ∃ t, r = .vs (a ++ t)) ∧
    parseF 10 (manyP (charP 'a')) "bbb".data (.vs []) true =
      .ok (.vs []) "bbb".data none := by
  refine ⟨?_, by decide⟩
  intro f p s a sup r rest e h
  cases f with
  | zero => simp [parseF] at h
  | succ f =>
    simp only [manyP, parseF, parseCore] at h
    rcases hml : manyLoop (fun s' => parseF f p s' (.vs []) true) (f + 1) (.vs a) s
      with ⟨r0, rest0, e0⟩ | exc | _ <;> rw [hml] at h <;> (try dsimp only at h)
    · have he0 := manyLoop_no_err _ _ _ _ _ _ _ hml
      subst he0
      simp only [sendRest] at h
      cases h
      exact ⟨rfl, manyLoop_vs _ _ _ _ _ _ _ hml⟩
    · cases h
    · cases h

/-- C7 witness: the general conjunct applied to `Many(Char('a'))` on
"aab" with accumulator "z". -/
theorem C7_many_always_succeeds_witness :
    parseF 10 (manyP (charP 'a')) "aab".data (.vs "z".data) true =
      .ok (.vs "zaa".data) "b".data none ∧
    ((none : Option ParseError) = none ∧
      ∃ t, Val.vs "zaa".data = .vs ("z".data ++ t)) :=
  ⟨by decide,
   C7_many_always_succeeds.1 10 (charP 'a') "aab".data "z".data true
     (.vs "zaa".data) "b".data none (by decide)⟩

/-- A successful literal leaf appends its matched text to the string
accumulator, and the match plus the remainder reassemble the input. -/
theorem litLeaf_ok :
    ∀ (f : Nat) (p : P) (s u : Str) (sup : Bool) (r : Val) (rest : Str),
      litLeaf p = true → parseF f p s (.vs u) sup = .ok r rest none →
      ∃ m, r = .vs (u ++ m) ∧ m ++ rest = s := by
  intro f p s u sup r rest hp h
  cases f with
  | zero => simp [parseF] at h
  | succ f =>
    obtain ⟨c0, nx⟩ := p
    cases nx with
    | link ty np => cases c0 <;> simp [litLeaf] at hp
    | none =>
      cases c0 with
      | char c =>
        cases s with
        | nil =>
          simp only [parseF, parseCore] at h
          rcases sup with _ | _ <;> simp [sendRest] at h
        | cons c' t =>
          simp only [parseF, parseCore] at h
          by_cases hc : c' = c
          · rw [if_pos hc] at h
            dsimp only [valAdd] at h
            simp only [sendRest] at h
            cases h
            exact ⟨[c], rfl, by simp [hc]⟩
          · rw [if_neg hc] at h
            rcases sup with _ | _ <;> simp [sendRest] at h
      | str ps =>
        simp only [parseF, parseCore] at h
        by_cases hps : ps.isPrefixOf s
        · rw [if_pos hps] at h
          dsimp only [valAdd] at h
          simp only [sendRest] at h
          cases h
          obtain ⟨t, ht⟩ := List.isPrefixOf_iff_prefix.mp hps
          refine ⟨ps, rfl, ?_⟩
          rw [← ht, List.drop_left]
        · rw [if_neg hps] at h
          rcases sup with _ | _ <;> simp [sendRest] at h
      | oneOf cs => simp [litLeaf] at hp
      | noneOf cs => simp [litLeaf] at hp
      | chain os ds => simp [litLeaf] at hp
      | many q => simp [litLeaf] at hp
      | many1 q => simp [litLeaf] at hp
      | between a b c => simp [litLeaf] at hp
      | sepBy a b => simp [litLeaf] at hp

/-- In an all-false discard map every lookup with default false is
false. -/
theorem all_false_getD :
    ∀ (ds : List Bool) (j : Nat), ds.all (fun b => b = false) = true →
      ds.getD j false = false := by
  intro ds
  induction ds with
  | nil => intro j _; simp [List.getD]
  | cons b bs ih =>
    intro j hall
    simp only [List.all_cons, Bool.and_eq_true, decide_eq_true_eq] at hall
    cases j with
    | zero => simpa [List.getD] using hall.1
    | succ j =>
      have := ih j (by simpa using hall.2)
      simpa [List.getD] using this

/-- The chain loop over literal leaves with all-false discard flags
threads the accumulator: a successful run extends the working string and
the extension plus the final remainder reassemble the consumed input. -/
theorem chainLoop_lit (f : Nat) (s0 : Str) (ds : List Bool)
    (hds : ds.all (fun b => b = false) = true) :
    ∀ (os : List P), os.all litLeaf = true →
    ∀ (i : Nat) (u : Str) (pv : Val) (rest : Str) (r : Val) (rest' : Str),
      chainLoop (fun q s' a => parseF f q s' a true) s0 ds os i (.vs u) pv rest =
        .ok r rest' none →
      ∃ w, r = .vs w ∧ w ++ rest' = u ++ rest := by
  intro os
  induction os with
  | nil =>
    intro _ i u pv rest r rest' h
    simp only [chainLoop] at h
    cases h
    exact ⟨u, rfl, rfl⟩
  | cons q qs ih =>
    intro hall i u pv rest r rest' h
    simp only [List.all_cons, Bool.and_eq_true] at hall
    simp only [chainLoop] at h
    rw [all_false_getD ds (i - 1) hds] at h
    simp only [Bool.and_false, Bool.false_eq_true, if_false] at h
    rcases hstep : parseF f q rest (.vs u) true with ⟨r1, rest1, e1⟩ | exc | _ <;>
      rw [hstep] at h
    · cases e1 with
      | none =>
        dsimp only at h
        obtain ⟨m, hm1, hm2⟩ := litLeaf_ok f q rest u true r1 rest1 hall.1 hstep
        subst hm1
        obtain ⟨w, hw1, hw2⟩ := ih hall.2 (i + 1) (u ++ m) _ rest1 r rest' h
        exact ⟨w, hw1, by rw [hw2, List.append_assoc, hm2]⟩
      | some err => dsimp only at h; cases h
    · cases h
    · cases h

/-- C8 amended: for a grammar that is a literal leaf or a single flat
keep-sequenced `Chain` of literal leaves, a successful parse from the
empty accumulator satisfies the round trip: result ++ remaining = input.
Nesting a keep-sequence inside another (as in the counterexample) breaks
it, because an inner `Chain` restarts its working accumulator from the
empty string. -/
theorem C8_amended_flat_roundtrip (f : Nat) (p : P) (s : Str) (sup : Bool)
    (r : Val) (rest : Str) (hp : flatKeepLit p = true)
    (h : parseF f p s (.vs []) sup = .ok r rest none) :
    ∃ m, r = .vs m ∧ m ++ rest = s := by
  cases f with
  | zero => simp [parseF] at h
  | succ f =>
    obtain ⟨c0, nx⟩ := p
    cases nx with
    | link ty np =>
      cases c0 <;> simp [flatKeepLit, litLeaf] at hp
    | none =>
      cases c0 with
      | chain os ds =>
        simp only [flatKeepLit, Bool.and_eq_true] at hp
        simp only [parseF, parseCore] at h
        rcases hcl : chainLoop (fun q s' a => parseF f q s' a true) s ds os 0
          (.vs []) (.vs []) s with ⟨r0, rest0, e0⟩ | exc | _ <;> rw [hcl] at h <;>
          (try dsimp only at h)
        · cases e0 with
          | none =>
            simp only [sendRest] at h
            cases h
            obtain ⟨w, hw1, hw2⟩ :=
              chainLoop_lit f s ds hp.2 os hp.1 0 [] (.vs []) s _ _ hcl
            exact ⟨w, hw1, by simpa using hw2⟩
          | some e1 => rcases sup with _ | _ <;> simp [sendRest] at h
        · cases h
        · cases h
      | char c =>
        obtain ⟨m, hm1, hm2⟩ :=
          litLeaf_ok (f + 1) (.mk (.char c) .none) s [] sup r rest (by simp [litLeaf]) h
        exact ⟨m, by simpa using hm1, hm2⟩
      | str ps =>
        obtain ⟨m, hm1, hm2⟩ :=
          litLeaf_ok (f + 1) (.mk (.str ps) .none) s [] sup r rest (by simp [litLeaf]) h
        exact ⟨m, by simpa using hm1, hm2⟩
      | oneOf cs => simp [flatKeepLit, litLeaf] at hp
      | noneOf cs => simp [flatKeepLit, litLeaf] at hp
      | many q => simp [flatKeepLit, litLeaf] at hp
      | many1 q => simp [flatKeepLit, litLeaf] at hp
      | between a b c => simp [flatKeepLit, litLeaf] at hp
      | sepBy a b => simp [flatKeepLit, litLeaf] at hp

/-- C8 amended, witness: the flat chain `Char('a') >> Char('b')` on
"abc" satisfies the round trip. -/
theorem C8_amended_flat_roundtrip_witness :
    flatKeepLit (rshiftP (charP 'a') (charP 'b')) = true ∧
    parseF 20 (rshiftP (charP 'a') (charP 'b')) "abc".data (.vs []) true =
      .ok (.vs "ab".data) "c".data none ∧
    ∃ m, Val.vs "ab".data = .vs m ∧ m ++ "c".data = "abc".data :=
  ⟨by decide, by decide,
   C8_amended_flat_roundtrip 20 (rshiftP (charP 'a') (charP 'b')) "abc".data true
     (.vs "ab".data) "c".data (by decide) (by decide)⟩

/-- If every step keeps the remainder a suffix of its input, the chain
loop returns a remainder that is a suffix of the chain's input. -/
theorem chainLoop_suffix (step : P → Str → Val → Res) (s0 : Str) (ds : List Bool)
    (hstep : ∀ q s' a r rest e, step q s' a = .ok r rest e → rest <:+ s') :
    ∀ (os : List P) (i : Nat) (res pv : Val) (rest0 : Str) (r : Val) (rest' : Str)
      (e : Option ParseError), rest0 <:+ s0 →
      chainLoop step s0 ds os i res pv rest0 = .ok r rest' e → rest' <:+ s0 := by
  intro os
  induction os with
  | nil =>
    intro i res pv rest0 r rest' e h0 h
    simp only [chainLoop] at h
    cases h
    exact h0
  | cons q qs ih =>
    intro i res pv rest0 r rest' e h0 h
    simp only [chainLoop] at h
    rcases hs : step q rest0 (if i > 0 && ds.getD (i - 1) false then pv else res) with
      ⟨r1, rest1, e1⟩ | exc | _ <;> rw [hs] at h
    · cases e1 with
      | none =>
        dsimp only at h
        exact ih _ _ _ _ _ _ _ ((hstep _ _ _ _ _ _ hs).trans h0) h
      | some err => dsimp only at h; cases h; exact List.suffix_rfl
    · cases h
    · cases h

/-- If every step keeps the remainder a suffix of its input, so does
`Many`'s loop. -/
theorem manyLoop_suffix (step : Str → Res)
    (hstep : ∀ s' v rest e, step s' = .ok v rest e → rest <:+ s') :
    ∀ (n : Nat) (res : Val) (rest0 : Str) (r : Val) (rest' : Str)
      (e : Option ParseError),
      manyLoop step n res rest0 = .ok r rest' e → rest' <:+ rest0 := by
  intro n
  induction n with
  | zero => intro res rest0 r rest' e h; simp [manyLoop] at h
  | succ n ih =>
    intro res rest0 r rest' e h
    simp only [manyLoop] at h
    rcases hs : step rest0 with ⟨v1, rest1, e1⟩ | exc | _ <;> rw [hs] at h
    · cases e1 with
      | none =>
        dsimp only at h
        rcases hv : valIAdd res v1 with _ | r1 <;> rw [hv] at h <;>
          (try dsimp only at h)
        · cases h
        · exact (ih _ _ _ _ _ h).trans (hstep _ _ _ _ hs)
      | some err => dsimp only at h; cases h; exact hstep _ _ _ _ hs
    · cases h
    · cases h

/-- If both steps keep the remainder a suffix of their input, so does
`SepBy`'s loop. -/
theorem sepLoop_suffix (B S : Str → Res)
    (hB : ∀ s' v rest e, B s' = .ok v rest e → rest <:+ s')
    (hS : ∀ s' v rest e, S s' = .ok v rest e → rest <:+ s') :
    ∀ (n : Nat) (res : List Val) (rest0 : Str) (r : Val) (rest' : Str)
      (e : Option ParseError),
      sepLoop B S n res rest0 = .ok r rest' e → rest' <:+ rest0 := by
  intro n
  induction n with
  | zero => intro res rest0 r rest' e h; simp [sepLoop] at h
  | succ n ih =>
    intro res rest0 r rest' e h
    simp only [sepLoop] at h
    rcases hb : B rest0 with ⟨v1, rest1, be⟩ | exc | _ <;> rw [hb] at h <;>
      (try dsimp only at h)
    · rcases hs : S rest1 with ⟨w1, rest2, se⟩ | exc | _ <;> rw [hs] at h <;>
        (try dsimp only at h)
      · cases se with
        | none =>
          exact (ih _ _ _ _ _ h).trans ((hS _ _ _ _ hs).trans (hB _ _ _ _ hb))
        | some e2 =>
          cases h
          exact (hS _ _ _ _ hs).trans (hB _ _ _ _ hb)
      · cases h
      · cases h
    · cases h
    · cases h

/-- Global invariant: any triple a parse returns has a remainder that is
a suffix of the input it was given. -/
theorem rest_suffix :
    ∀ (f : Nat) (p : P) (s : Str) (acc : Val) (sup : Bool) (r : Val) (rest : Str)
      (e : Option ParseError),
      parseF f p s acc sup = .ok r rest e → rest <:+ s := by
  intro f
  induction f with
  | zero => intro p s acc sup r rest e h; simp [parseF] at h
  | succ f ih =>
    intro p s acc sup r rest e h
    obtain ⟨c, nx⟩ := p
    simp only [parseF] at h
    have hbody : ∀ r0 rest0 e0,
        parseCore (parseF f) (f + 1) c s acc = .ok r0 rest0 e0 → rest0 <:+ s := by
      intro r0 rest0 e0 hb
      cases c with
      | char ch =>
        cases s with
        | nil => simp only [parseCore] at hb; cases hb; exact List.suffix_rfl
        | cons c' t =>
          simp only [parseCore] at hb
          split at hb
          · rcases hv : valAdd acc (.vs [ch]) with _ | v <;> rw [hv] at hb <;>
              (try dsimp only at hb)
            · cases hb
            · cases hb; exact List.suffix_cons _ _
          · cases hb; exact List.suffix_rfl
      | str ps =>
        simp only [parseCore] at hb
        split at hb
        · rcases hv : valAdd acc (.vs ps) with _ | v <;> rw [hv] at hb <;>
            (try dsimp only at hb)
          · cases hb
          · cases hb; exact List.drop_suffix _ _
        · cases hb; exact List.suffix_rfl
      | oneOf cs =>
        cases s with
        | nil =>
          simp only [parseCore] at hb
          split at hb
          · (try dsimp only at hb); cases hb
          · cases hb; exact List.suffix_rfl
        | cons c' t =>
          simp only [parseCore] at hb
          split at hb
          · (try dsimp only at hb)
            rcases hv : valAdd acc (.vs [c']) with _ | v <;> rw [hv] at hb <;>
              (try dsimp only at hb)
            · cases hb
            · cases hb; exact List.suffix_cons _ _
          · cases hb; exact List.suffix_rfl
      | noneOf cs =>
        cases s with
        | nil =>
          simp only [parseCore] at hb
          split at hb
          · (try dsimp only at hb); cases hb
          · cases hb; exact List.suffix_rfl
        | cons c' t =>
          simp only [parseCore] at hb
          split at hb
          · (try dsimp only at hb)
            rcases hv : valAdd acc (.vs [c']) with _ | v <;> rw [hv] at hb <;>
              (try dsimp only at hb)
            · cases hb
            · cases hb; exact List.suffix_cons _ _
          · cases hb; exact List.suffix_rfl
      | chain os ds =>
        simp only [parseCore] at hb
        exact chainLoop_suffix _ _ _
          (fun q s' a r' rest1 e' hq => ih q s' a true r' rest1 e' hq)
          os 0 (.vs []) acc s r0 rest0 e0 List.suffix_rfl hb
      | many p1 =>
        simp only [parseCore] at hb
        exact manyLoop_suffix _
          (fun s' v rest1 e' hq => ih p1 s' (.vs []) true v rest1 e' hq)
          _ _ _ _ _ _ hb
      | many1 p1 =>
        simp only [parseCore] at hb
        rcases hm : parseF f p1 s acc true with ⟨v1, rest1, e1⟩ | exc | _ <;>
          rw [hm] at hb
        · cases e1 with
          | none =>
            dsimp only at hb
            rcases hv : valIAdd acc v1 with _ | r1 <;> rw [hv] at hb <;>
              (try dsimp only at hb)
            · cases hb
            · exact (manyLoop_suffix _
                (fun s' v rest2 e' hq => ih p1 s' (.vs []) true v rest2 e' hq)
                _ _ _ _ _ _ hb).trans (ih _ _ _ _ _ _ _ hm)
          | some e1 =>
            dsimp only at hb
            cases hb
            exact ih _ _ _ _ _ _ _ hm
        · cases hb
        · cases hb
      | between st1 bd en =>
        simp only [parseCore] at hb
        rcases h1 : parseF f (lshiftP st1 bd) s acc false with ⟨rr, rest1, e1⟩ | exc | _ <;>
          rw [h1] at hb
        · cases e1 with
          | none =>
            dsimp only at hb
            rcases h2 : parseF f en rest1 (.vs []) false with ⟨r2, rest2, e2⟩ | exc | _ <;>
              rw [h2] at hb <;> (try dsimp only at hb)
            · cases hb; exact (ih _ _ _ _ _ _ _ h2).trans (ih _ _ _ _ _ _ _ h1)
            · cases hb
            · cases hb
          | some e1 => dsimp only at hb; cases hb; exact List.suffix_rfl
        · cases hb
        · cases hb
      | sepBy bd sp =>
        simp only [parseCore] at hb
        exact sepLoop_suffix _ _
          (fun s' v rest1 e' hq => ih bd s' (.vs []) true v rest1 e' hq)
          (fun s' v rest1 e' hq => ih sp s' (.vs []) true v rest1 e' hq)
          _ _ _ _ _ _ hb
    rcases hbres : parseCore (parseF f) (f + 1) c s acc with ⟨r0, rest0, e0⟩ | exc | _ <;>
      rw [hbres] at h <;> (try dsimp only at h)
    · have h0 : rest0 <:+ s := hbody _ _ _ hbres
      cases nx with
      | none =>
        rcases e0 with _ | e1 <;> rcases sup with _ | _ <;>
          simp only [sendRest] at h <;> (try cases h) <;>
          first
          | exact h0
          | cases h
      | link ty np =>
        by_cases hty : ty = NextType.alternative
        · subst hty
          cases e0 with
          | none =>
            simp only [sendRest, if_pos rfl] at h
            cases h
            exact h0
          | some e1 =>
            simp only [sendRest, if_pos rfl] at h
            exact (ih _ _ _ _ _ _ _ h).trans h0
        · cases e0 with
          | none =>
            simp only [sendRest, if_neg hty] at h
            exact (ih _ _ _ _ _ _ _ h).trans h0
          | some e1 =>
            rcases sup with _ | _ <;> simp only [sendRest, if_neg hty] at h
            · cases h
            · exact (ih _ _ _ _ _ _ _ h).trans h0
    · cases h
    · cases h

/-- Replacing the step by one that agrees on non-fuelout results leaves
the chain loop unchanged, provided it did not run out of fuel. -/
theorem chainLoop_mono (step step' : P → Str → Val → Res) (s0 : Str)
    (ds : List Bool)
    (hstep : ∀ q s' a, step q s' a ≠ .fuelout → step' q s' a = step q s' a) :
    ∀ (os : List P) (i : Nat) (res pv : Val) (rest : Str),
      chainLoop step s0 ds os i res pv rest ≠ .fuelout →
      chainLoop step' s0 ds os i res pv rest =
        chainLoop step s0 ds os i res pv rest := by
  intro os
  induction os with
  | nil => intro i res pv rest _; simp [chainLoop]
  | cons q qs ih =>
    intro i res pv rest hne
    simp only [chainLoop] at hne ⊢
    rcases hs : step q rest (if i > 0 && ds.getD (i - 1) false then pv else res)
      with ⟨r1, rest1, e1⟩ | exc | _
    · rw [hstep _ _ _ (fun hc => by rw [hs] at hc; cases hc), hs]
      rw [hs] at hne
      cases e1 with
      | none => dsimp only at hne ⊢; exact ih _ _ _ _ hne
      | some err => rfl
    · rw [hstep _ _ _ (fun hc => by rw [hs] at hc; cases hc), hs]
    · rw [hs] at hne; dsimp only at hne; exact absurd rfl hne

/-- The analogous fuel monotonicity for `Many`'s loop, also in the
iteration bound. -/
theorem manyLoop_mono (step step' : Str → Res)
    (hstep : ∀ s', step s' ≠ .fuelout → step' s' = step s') :
    ∀ (n n' : Nat), n ≤ n' → ∀ (res : Val) (rest : Str),
      manyLoop step n res rest ≠ .fuelout →
      manyLoop step' n' res rest = manyLoop step n res rest := by
  intro n
  induction n with
  | zero => intro n' _ res rest hne; simp [manyLoop] at hne
  | succ n ih =>
    intro n' hle res rest hne
    obtain ⟨n'', rfl⟩ : ∃ m, n' = m + 1 := ⟨n' - 1, by omega⟩
    simp only [manyLoop] at hne ⊢
    rcases hs : step rest with ⟨v1, rest1, e1⟩ | exc | _
    · rw [hstep _ (fun hc => by rw [hs] at hc; cases hc), hs]
      rw [hs] at hne
      cases e1 with
      | none =>
        dsimp only at hne ⊢
        rcases hv : valIAdd res v1 with _ | r1
        · rfl
        · rw [hv] at hne
          dsimp only at hne ⊢
          exact ih n'' (by omega) _ _ hne
      | some err => rfl
    · rw [hstep _ (fun hc => by rw [hs] at hc; cases hc), hs]
    · rw [hs] at hne; dsimp only at hne; exact absurd rfl hne

/-- The analogous fuel monotonicity for `SepBy`'s loop. -/
theorem sepLoop_mono (B S B' S' : Str → Res)
    (hB : ∀ s', B s' ≠ .fuelout → B' s' = B s')
    (hS : ∀ s', S s' ≠ .fuelout → S' s' = S s') :
    ∀ (n n' : Nat), n ≤ n' → ∀ (res : List Val) (rest : Str),
      sepLoop B S n res rest ≠ .fuelout →
      sepLoop B' S' n' res rest = sepLoop B S n res rest := by
  intro n
  induction n with
  | zero => intro n' _ res rest hne; simp [sepLoop] at hne
  | succ n ih =>
    intro n' hle res rest hne
    obtain ⟨n'', rfl⟩ : ∃ m, n' = m + 1 := ⟨n' - 1, by omega⟩
    simp only [sepLoop] at hne ⊢
    rcases hb : B rest with ⟨v1, rest1, be⟩ | exc | _
    · rw [hB _ (fun hc => by rw [hb] at hc; cases hc), hb]
      rw [hb] at hne
      dsimp only at hne ⊢
      rcases hs : S rest1 with ⟨w1, rest2, se⟩ | exc | _
      · rw [hS _ (fun hc => by rw [hs] at hc; cases hc), hs]
        rw [hs] at hne
        cases se with
        | none => dsimp only at hne ⊢; exact ih n'' (by omega) _ _ hne
        | some e2 => rfl
      · rw [hS _ (fun hc => by rw [hs] at hc; cases hc), hs]
      · rw [hs] at hne; dsimp only at hne; exact absurd rfl hne
    · rw [hB _ (fun hc => by rw [hb] at hc; cases hc), hb]
    · rw [hb] at hne; dsimp only at hne; exact absurd rfl hne

/-- Fuel monotonicity: a parse that did not run out of fuel returns the
same outcome at any larger fuel. -/
theorem parseF_mono :
    ∀ (f f' : Nat), f ≤ f' → ∀ (p : P) (s : Str) (acc : Val) (sup : Bool),
      parseF f p s acc sup ≠ .fuelout →
      parseF f' p s acc sup = parseF f p s acc sup := by
  intro f
  induction f with
  | zero => intro f' _ p s acc sup hne; simp [parseF] at hne
  | succ f ih =>
    intro f' hle p s acc sup hne
    obtain ⟨f'', rfl⟩ : ∃ m, f' = m + 1 := ⟨f' - 1, by omega⟩
    have hf : f ≤ f'' := by omega
    obtain ⟨c, nx⟩ := p
    have hstepP : ∀ (q : P) (s' : Str) (a : Val) (sup' : Bool),
        parseF f q s' a sup' ≠ .fuelout →
        parseF f'' q s' a sup' = parseF f q s' a sup' :=
      fun q s' a sup' => ih f'' hf q s' a sup'
    have hbody : parseCore (parseF f) (f + 1) c s acc ≠ .fuelout →
        parseCore (parseF f'') (f'' + 1) c s acc =
          parseCore (parseF f) (f + 1) c s acc := by
      intro hbne
      cases c with
      | char ch => rfl
      | str ps => rfl
      | oneOf cs => rfl
      | noneOf cs => rfl
      | chain os ds =>
        simp only [parseCore] at hbne ⊢
        exact chainLoop_mono _ _ _ _ (fun q s' a hq => hstepP q s' a true hq)
          os 0 (.vs []) acc s hbne
      | many p1 =>
        simp only [parseCore] at hbne ⊢
        exact manyLoop_mono _ _ (fun s' hq => hstepP p1 s' (.vs []) true hq)
          (f + 1) (f'' + 1) (by omega) acc s hbne
      | many1 p1 =>
        simp only [parseCore] at hbne ⊢
        rcases hm : parseF f p1 s acc true with ⟨v1, rest1, e1⟩ | exc | _
        · rw [hstepP p1 s acc true (fun hc => by rw [hm] at hc; cases hc), hm]
          rw [hm] at hbne
          cases e1 with
          | none =>
            dsimp only at hbne ⊢
            rcases hv : valIAdd acc v1 with _ | r1
            · rfl
            · rw [hv] at hbne
              dsimp only at hbne ⊢
              exact manyLoop_mono _ _ (fun s' hq => hstepP p1 s' (.vs []) true hq)
                (f + 1) (f'' + 1) (by omega) r1 rest1 hbne
          | some e1 => rfl
        · rw [hstepP p1 s acc true (fun hc => by rw [hm] at hc; cases hc), hm]
        · rw [hm] at hbne; dsimp only at hbne; exact absurd rfl hbne
      | between st1 bd en =>
        simp only [parseCore] at hbne ⊢
        rcases h1 : parseF f (lshiftP st1 bd) s acc false with ⟨r1, rest1, e1⟩ | exc | _
        · rw [hstepP _ _ _ false (fun hc => by rw [h1] at hc; cases hc), h1]
          rw [h1] at hbne
          cases e1 with
          | none =>
            dsimp only at hbne ⊢
            rcases h2 : parseF f en rest1 (.vs []) false with ⟨r2, rest2, e2⟩ | exc | _
            · rw [hstepP _ _ _ false (fun hc => by rw [h2] at hc; cases hc), h2]
            · rw [hstepP _ _ _ false (fun hc => by rw [h2] at hc; cases hc), h2]
            · rw [h2] at hbne; dsimp only at hbne; exact absurd rfl hbne
          | some e1 => rfl
        · rw [hstepP _ _ _ false (fun hc => by rw [h1] at hc; cases hc), h1]
        · rw [h1] at hbne; dsimp only at hbne; exact absurd rfl hbne
      | sepBy bd sp =>
        simp only [parseCore] at hbne ⊢
        exact sepLoop_mono _ _ _ _
          (fun s' hq => hstepP bd s' (.vs []) true hq)
          (fun s' hq => hstepP sp s' (.vs []) true hq)
          (f + 1) (f'' + 1) (by omega) [] s hbne
    have hbne : parseCore (parseF f) (f + 1) c s acc ≠ .fuelout := by
      intro hc
      apply hne
      simp only [parseF]
      rw [hc]
    simp only [parseF]
    rw [hbody hbne]
    rcases hbres : parseCore (parseF f) (f + 1) c s acc with ⟨r0, rest0, e0⟩ | exc | _
    · dsimp only
      have hson : sendRest (parseF f) nx r0 rest0 e0 sup ≠ .fuelout := by
        intro hc
        apply hne
        simp only [parseF]
        rw [hbres]
        exact hc
      cases nx with
      | none => rfl
      | link ty np =>
        by_cases hty : ty = NextType.alternative
        · subst hty
          cases e0 with
          | none => rfl
          | some e1 =>
            simp only [sendRest, if_pos rfl] at hson ⊢
            exact hstepP np rest0 r0 sup hson
        · cases e0 with
          | none =>
            simp only [sendRest, if_neg hty] at hson ⊢
            exact hstepP np rest0 r0 sup hson
          | some e1 =>
            rcases sup with _ | _
            · simp only [sendRest, if_neg hty]
            · simp only [sendRest, if_neg hty] at hson ⊢
              exact hstepP np rest0 r0 true hson
    · rfl
    · rfl

/-- From pointwise termination, one fuel bound works for a whole string
and all of its suffixes. -/
theorem uniform_fuel (p : P)
    (H2 : ∀ (s' : Str), ∃ f, parseF f p s' (.vs []) true ≠ .fuelout) :
    ∀ (s : Str), ∃ F, ∀ s', s' <:+ s → parseF F p s' (.vs []) true ≠ .fuelout := by
  intro s
  induction s with
  | nil =>
    obtain ⟨f, hf⟩ := H2 []
    exact ⟨f, fun s' hs' => by rw [List.suffix_nil.mp hs']; exact hf⟩
  | cons c t ih =>
    obtain ⟨F1, hF1⟩ := ih
    obtain ⟨f2, hf2⟩ := H2 (c :: t)
    refine ⟨max F1 f2, fun s' hs' => ?_⟩
    rcases List.suffix_cons_iff.mp hs' with h | h
    · subst h
      rw [parseF_mono f2 (max F1 f2) (le_max_right _ _) p (c :: t) (.vs []) true hf2]
      exact hf2
    · rw [parseF_mono F1 (max F1 f2) (le_max_left _ _) p s' (.vs []) true (hF1 s' h)]
      exact hF1 s' h

/-- If the sub-parser always returns within fuel `F` on every suffix of
`s` and strictly consumes on success, `Many`'s loop does not run out of
iterations once the bound exceeds the remaining length. -/
theorem manyLoop_term (p : P) (F : Nat) (s : Str)
    (ha : ∀ s', s' <:+ s → parseF F p s' (.vs []) true ≠ .fuelout)
    (hshrink : ∀ s' r rest, parseF F p s' (.vs []) true = .ok r rest none →
      rest.length < s'.length) :
    ∀ (n : Nat) (rest : Str) (res : Val), rest <:+ s → rest.length + 1 ≤ n →
      manyLoop (fun s' => parseF F p s' (.vs []) true) n res rest ≠ .fuelout := by
  intro n
  induction n with
  | zero => intro rest res hsuf hlen; omega
  | succ n ih =>
    intro rest res hsuf hlen
    simp only [manyLoop]
    rcases hs : parseF F p rest (.vs []) true with ⟨v1, rest1, e1⟩ | exc | _
    · cases e1 with
      | none =>
        dsimp only
        rcases hv : valIAdd res v1 with _ | r1
        · intro hc; cases hc
        · have h1 : rest1 <:+ rest := rest_suffix F p rest (.vs []) true v1 rest1 none hs
          have h2 := hshrink rest v1 rest1 hs
          exact ih rest1 r1 (h1.trans hsuf) (by omega)
      | some err => intro hc; cases hc
    · intro hc; cases hc
    · exact absurd hs (ha rest hsuf)

/-- C9: if the sub-parser strictly consumes input whenever it succeeds
(and terminates), then `Many` and `Many1` over it terminate on every
finite input, and any triple they return has remaining input no longer
than the original input. -/
theorem C9_repetition_terminates (p : P) (s : Str) (acc : Val) (sup : Bool)
    (H1 : ∀ (f : Nat) (s' : Str) (a : Val) (sup' : Bool) (r : Val) (rest : Str),
      parseF f p s' a sup' = .ok r rest none → rest.length < s'.length)
    (H2 : ∀ (s' : Str) (a : Val), ∃ f, parseF f p s' a true ≠ .fuelout) :
    (∃ F, parseF F (manyP p) s acc sup ≠ .fuelout) ∧
    (∃ F, parseF F (many1P p) s acc sup ≠ .fuelout) ∧
    (∀ (F : Nat) (r : Val) (rest : Str) (e : Option ParseError),
      parseF F (manyP p) s acc sup = .ok r rest e → rest.length ≤ s.length) ∧
    (∀ (F : Nat) (r : Val) (rest : Str) (e : Option ParseError),
      parseF F (many1P p) s acc sup = .ok r rest e → rest.length ≤ s.length) := by
  obtain ⟨F0, hF0⟩ := uniform_fuel p (fun s' => H2 s' (.vs [])) s
  refine ⟨?_, ?_, ?_, ?_⟩
  · set F := max F0 (s.length + 1) with hFdef
    have hmono : ∀ s', s' <:+ s → parseF F p s' (.vs []) true ≠ .fuelout := by
      intro s' hs'
      rw [parseF_mono F0 F (le_max_left _ _) p s' (.vs []) true (hF0 s' hs')]
      exact hF0 s' hs'
    refine ⟨F + 1, ?_⟩
    intro hc
    simp only [manyP, parseF, parseCore] at hc
    rcases hml : manyLoop (fun s' => parseF F p s' (.vs []) true) (F + 1) acc s with
      ⟨r0, rest0, e0⟩ | exc | _ <;> rw [hml] at hc <;> (try dsimp only at hc)
    · cases e0 <;> rcases sup with _ | _ <;> simp [sendRest] at hc
    · cases hc
    · have hFlen : s.length + 1 ≤ F := le_max_right _ _
      exact manyLoop_term p F s hmono
        (fun s' r rest h => H1 F s' (.vs []) true r rest h)
        (F + 1) s acc List.suffix_rfl (by omega) hml
  · obtain ⟨f1, hf1⟩ := H2 s acc
    set F := max (max F0 f1) (s.length + 1) with hFdef
    have hmono : ∀ s', s' <:+ s → parseF F p s' (.vs []) true ≠ .fuelout := by
      intro s' hs'
      rw [parseF_mono F0 F ((le_max_left _ _).trans (le_max_left _ _)) p s'
        (.vs []) true (hF0 s' hs')]
      exact hF0 s' hs'
    have hfirst : parseF F p s acc true = parseF f1 p s acc true :=
      parseF_mono f1 F ((le_max_right _ _).trans (le_max_left _ _)) p s acc true hf1
    refine ⟨F + 1, ?_⟩
    intro hc
    simp only [many1P, parseF, parseCore] at hc
    rcases hm : parseF F p s acc true with ⟨v1, rest1, e1⟩ | exc | _ <;> rw [hm] at hc
    · cases e1 with
      | none =>
        dsimp only at hc
        rcases hv : valIAdd acc v1 with _ | r1 <;> rw [hv] at hc <;>
          (try dsimp only at hc)
        · cases hc
        · rcases hml : manyLoop (fun s' => parseF F p s' (.vs []) true) (F + 1) r1 rest1
            with ⟨r0, rest0, e0⟩ | exc | _ <;> rw [hml] at hc <;> (try dsimp only at hc)
          · cases e0 <;> rcases sup with _ | _ <;> simp [sendRest] at hc
          · cases hc
          · have hsuf1 : rest1 <:+ s := rest_suffix F p s acc true v1 rest1 none hm
            have hlen1 : rest1.length ≤ s.length := hsuf1.length_le
            have hFlen : s.length + 1 ≤ F := le_max_right _ _
            exact manyLoop_term p F s hmono
              (fun s' r rest h => H1 F s' (.vs []) true r rest h)
              (F + 1) rest1 r1 hsuf1 (by omega) hml
      | some e1 =>
        dsimp only at hc
        rcases sup with _ | _ <;> simp [sendRest] at hc
    · dsimp only at hc; cases hc
    · rw [hfirst] at hm
      exact absurd hm hf1
  · intro F r rest e h
    exact (rest_suffix F (manyP p) s acc sup r rest e h).length_le
  · intro F r rest e h
    exact (rest_suffix F (many1P p) s acc sup r rest e h).length_le

/-- A successful `Char` parse consumes exactly one character. -/
theorem charP_ok (f : Nat) (c : Char) (s' : Str) (a : Val) (sup' : Bool)
    (r : Val) (rest : Str)
    (h : parseF f (charP c) s' a sup' = .ok r rest none) :
    rest.length < s'.length := by
  cases f with
  | zero => simp [parseF] at h
  | succ f =>
    cases s' with
    | nil =>
      simp only [charP, parseF, parseCore] at h
      rcases sup' with _ | _ <;> simp [sendRest] at h
    | cons c' t =>
      simp only [charP, parseF, parseCore] at h
      by_cases hc : c' = c
      · rw [if_pos hc] at h
        rcases ha : valAdd a (.vs [c]) with _ | v <;> rw [ha] at h <;>
          (try dsimp only at h)
        · cases h
        · simp only [sendRest] at h
          cases h
          simp
      · rw [if_neg hc] at h
        rcases sup' with _ | _ <;> simp [sendRest] at h

/-- A `Char` parse always returns within fuel 2. -/
theorem charP_total (c : Char) (s' : Str) (a : Val) :
    parseF 2 (charP c) s' a true ≠ .fuelout := by
  intro hc
  cases s' with
  | nil =>
    simp only [charP, parseF, parseCore] at hc
    simp [sendRest] at hc
  | cons c' t =>
    simp only [charP, parseF, parseCore] at hc
    by_cases h : c' = c
    · rw [if_pos h] at hc
      rcases ha : valAdd a (.vs [c]) with _ | v <;> rw [ha] at hc <;>
        (try dsimp only at hc)
      · cases hc
      · simp [sendRest] at hc
    · rw [if_neg h] at hc
      simp [sendRest] at hc

/-- C9 witness: the termination-and-length theorem applied to the
strictly consuming sub-parser `Char('a')` on input "aab". -/
theorem C9_repetition_terminates_witness :
    (∃ F, parseF F (manyP (charP 'a')) "aab".data (.vs []) true ≠ .fuelout) ∧
    (∃ F, parseF F (many1P (charP 'a')) "aab".data (.vs []) true ≠ .fuelout) ∧
    (∀ (F : Nat) (r : Val) (rest : Str) (e : Option ParseError),
      parseF F (manyP (charP 'a')) "aab".data (.vs []) true = .ok r rest e →
      rest.length ≤ "aab".data.length) ∧
    (∀ (F : Nat) (r : Val) (rest : Str) (e : Option ParseError),
      parseF F (many1P (charP 'a')) "aab".data (.vs []) true = .ok r rest e →
      rest.length ≤ "aab".data.length) :=
  C9_repetition_terminates (charP 'a') "aab".data (.vs []) true
    (fun f s' a sup' r rest h => charP_ok f 'a' s' a sup' r rest h)
    (fun s' a => ⟨2, charP_total 'a' s' a⟩)

end PySec
